import Mathlib

/-!
# Verification of the chunked availability-query optimizer

Shallow embedding of the core of `healthie-dev-tools` (the
`optimize-availability-query` module) and proofs about it.

Conventions of the embedding:
* Calendar dates are represented by their day offset from `today`
  (the anchor date with time-of-day zeroed): the TypeScript code only
  adds whole days to `today` and compares dates, so the offset model
  is faithful for counting, contiguity and span properties.
* JavaScript numbers are modelled by `ℚ` (exact arithmetic); the one
  place where IEEE-754 special values matter (division by a zero
  sample count producing `NaN`) gets its own explicit model `JSNum`.
* `Array.prototype.sort` with an ascending comparator is modelled by
  `List.insertionSort (· ≤ ·)` (a stable ascending sort, as the
  ECMAScript spec guarantees for `sort`).
-/

namespace HealthieDevTools

/-- Embeds `Math.ceil(a / b)` for positive integers: the number of chunks a
`a`-day span yields at chunk size `b`. -/
def ceilDiv (a b : ℕ) : ℕ := (a + b - 1) / b

theorem ceilDiv_eq_one {n k : ℕ} (h1 : 1 ≤ n) (h2 : n ≤ k) : ceilDiv n k = 1 := by
  have hk : 0 < k := lt_of_lt_of_le h1 h2
  unfold ceilDiv
  have hle : 1 ≤ (n + k - 1) / k := by
    rw [Nat.le_div_iff_mul_le hk]
    omega
  have hlt : (n + k - 1) / k < 2 := by
    rw [Nat.div_lt_iff_lt_mul hk]
    omega
  omega

theorem ceilDiv_sub {n k : ℕ} (hk : 1 ≤ k) (h : k ≤ n) :
    ceilDiv n k = ceilDiv (n - k) k + 1 := by
  unfold ceilDiv
  have harg : n + k - 1 = (n - k) + k - 1 + k := by omega
  rw [harg, Nat.add_div_right _ (by omega)]

theorem ceilDiv_pos {n k : ℕ} (h1 : 1 ≤ n) (hk : 1 ≤ k) : 1 ≤ ceilDiv n k := by
  unfold ceilDiv
  rw [Nat.le_div_iff_mul_le (by omega)]
  omega

theorem ceilDiv_of_dvd {n k : ℕ} (hk : 1 ≤ k) (h1 : 1 ≤ n) (h : n % k = 0) :
    ceilDiv n k = n / k := by
  obtain ⟨q, hq⟩ := Nat.dvd_of_mod_eq_zero h
  subst hq
  unfold ceilDiv
  have harg : k * q + k - 1 = k * q + (k - 1) := by omega
  rw [harg, Nat.mul_add_div (by omega), Nat.div_eq_of_lt (by omega),
    Nat.mul_div_cancel_left _ (by omega)]
  omega

theorem ceilDiv_of_not_dvd {n k : ℕ} (hk : 1 ≤ k) (h : n % k ≠ 0) :
    ceilDiv n k = n / k + 1 := by
  have hmod : n % k < k := Nat.mod_lt _ (by omega)
  have hmod1 : 1 ≤ n % k := by omega
  unfold ceilDiv
  have harg : n + k - 1 = k * (n / k) + (n % k - 1 + k) := by
    have hdm := Nat.div_add_mod n k
    omega
  rw [harg, Nat.mul_add_div (by omega : 0 < k)]
  have h2 : (n % k - 1 + k) / k = 1 := by
    rw [Nat.add_div_right _ (by omega : 0 < k), Nat.div_eq_of_lt (by omega)]
  rw [h2]

/-! ## Range Partitioner (`utils/date-utils.ts`, `generateDateRanges`)

A `DateRange` is a pair `(start, end)` of inclusive day offsets from
`today`.  The source builds ranges in a `while (currentStart < finalEnd)`
loop where `finalEnd = today + daysAhead`; each range ends at
`currentStart + daysPerChunk - 1`, capped at `finalEnd`, and the next
range starts the day after the end of the previous range.  The loop is a
`while`, embedded with a fuel argument; `daysAhead + 1` units of fuel
are enough because every iteration advances `currentStart` by at least
one day. -/

def genRangesGo (daysPerChunk finalEnd : ℕ) : ℕ → ℕ → List (ℕ × ℕ)
  | 0, _ => []
  | fuel + 1, currentStart =>
    if currentStart < finalEnd then
      let currentEnd := min (currentStart + daysPerChunk - 1) finalEnd
      (currentStart, currentEnd) :: genRangesGo daysPerChunk finalEnd fuel (currentEnd + 1)
    else []

/-- Embeds `generateDateRanges(daysPerChunk, daysAhead)` in the day-offset model. -/
def generateDateRanges (daysPerChunk daysAhead : ℕ) : List (ℕ × ℕ) :=
  genRangesGo daysPerChunk daysAhead (daysAhead + 1) 0

/-- The inclusive calendar-day span of one range. -/
def rangeSpan (r : ℕ × ℕ) : ℕ := r.2 - r.1 + 1

/-- Predicate `contig s l` holds when the ranges in `l` tile the days starting at
`s`: each range starts where demanded, is well-formed (`start ≤ end`)
and the next range starts the day after it ends. -/
def contig : ℕ → List (ℕ × ℕ) → Bool
  | _, [] => true
  | s, r :: rest => r.1 == s && decide (r.1 ≤ r.2) && contig (r.2 + 1) rest

theorem genRangesGo_stop (c e fuel s : ℕ) (h : e ≤ s) : genRangesGo c e fuel s = [] := by
  cases fuel with
  | zero => rfl
  | succ n => simp [genRangesGo, Nat.not_lt.mpr h]

theorem genRangesGo_spans (c : ℕ) (hc : 1 ≤ c) (e : ℕ) :
    ∀ fuel s, s < e → e - s ≤ fuel →
      (genRangesGo c e fuel s).map rangeSpan
        = List.replicate (ceilDiv (e - s) c - 1) c
          ++ [if (e - s) % c = 0 then c else (e - s) % c + 1] := by
  intro fuel
  induction fuel with
  | zero => intro s hs hf; omega
  | succ fuel ih =>
    intro s hs hf
    rw [genRangesGo]
    simp only [if_pos hs]
    by_cases hcap : s + c - 1 < e
    · -- uncapped chunk of span `c`, recurse from `s + c`
      have hmin : min (s + c - 1) e = s + c - 1 := min_eq_left (le_of_lt hcap)
      have hspan : rangeSpan (s, s + c - 1) = c := by unfold rangeSpan; omega
      by_cases hend : s + c < e
      · -- more work remains after this chunk
        have hrec := ih (s + c - 1 + 1) (by omega) (by omega)
        rw [hmin, List.map_cons, hspan, hrec]
        have h1 : e - (s + c - 1 + 1) = (e - s) - c := by omega
        have h2 : ceilDiv (e - s) c = ceilDiv ((e - s) - c) c + 1 :=
          ceilDiv_sub hc (by omega)
        have h3 : (e - s) % c = ((e - s) - c) % c := by
          conv_lhs => rw [show e - s = (e - s - c) + c by omega]
          rw [Nat.add_mod_right]
        have h4 : 1 ≤ ceilDiv ((e - s) - c) c := ceilDiv_pos (by omega) hc
        rw [h1, h2, h3]
        rw [show ceilDiv (e - s - c) c + 1 - 1 = (ceilDiv (e - s - c) c - 1) + 1 by omega]
        rw [List.replicate_succ]
        simp
      · -- this chunk exactly exhausts the span
        have hse : e = s + c := by omega
        rw [hmin, List.map_cons, hspan,
          genRangesGo_stop c e fuel (s + c - 1 + 1) (by omega)]
        have hn : e - s = c := by omega
        rw [hn, Nat.mod_self, if_pos rfl, ceilDiv_eq_one hc (le_refl c)]
        simp
    · -- final capped chunk ending at `finalEnd`
      have hmin : min (s + c - 1) e = e := min_eq_right (by omega)
      rw [hmin, List.map_cons, genRangesGo_stop c e fuel (e + 1) (by omega)]
      have hn1 : 1 ≤ e - s := by omega
      have hnc : e - s < c := by omega
      have hmod : (e - s) % c = e - s := Nat.mod_eq_of_lt hnc
      have hspan : rangeSpan (s, e) = (e - s) + 1 := by unfold rangeSpan; omega
      rw [hspan, ceilDiv_eq_one hn1 (le_of_lt hnc), hmod, if_neg (by omega)]
      simp

theorem genRangesGo_contig (c : ℕ) (hc : 1 ≤ c) (e : ℕ) :
    ∀ fuel s, e - s ≤ fuel → contig s (genRangesGo c e fuel s) = true := by
  intro fuel
  induction fuel with
  | zero => intro s _; rfl
  | succ fuel ih =>
    intro s hf
    rw [genRangesGo]
    by_cases hs : s < e
    · simp only [if_pos hs]
      have hge : s ≤ min (s + c - 1) e := le_min (by omega) (by omega)
      rw [contig]
      have hrec : contig (min (s + c - 1) e + 1)
          (genRangesGo c e fuel (min (s + c - 1) e + 1)) = true := ih _ (by omega)
      simp [hrec, hge]
    · simp [if_neg hs, contig]

/-- C1.  For `chunkSizeDays ≥ 1` and `totalDays ≥ 1`,
`generateDateRanges` returns exactly `ceil(totalDays / chunkSizeDays)`
ranges; the ranges tile the days starting at `today` — each range
satisfies `start ≤ end` and starts exactly one day after the end of the
previous range (`contig 0`) — and when `chunkSizeDays ≥ totalDays` exactly
one range is returned. -/
theorem generateDateRanges_count_contig (c d : ℕ) (hc : 1 ≤ c) (hd : 1 ≤ d) :
    (generateDateRanges c d).length = ceilDiv d c
    ∧ contig 0 (generateDateRanges c d) = true
    ∧ (d ≤ c → (generateDateRanges c d).length = 1) := by
  have hspans := genRangesGo_spans c hc d (d + 1) 0 (by omega) (by omega)
  have hlen : (generateDateRanges c d).length = ceilDiv d c := by
    have := congrArg List.length hspans
    rw [List.length_map] at this
    unfold generateDateRanges
    rw [Nat.sub_zero] at this
    rw [this]
    simp only [List.length_append, List.length_replicate, List.length_cons,
      List.length_nil]
    have := ceilDiv_pos hd hc
    omega
  refine ⟨hlen, genRangesGo_contig c hc d (d + 1) 0 (by omega), fun hdc => ?_⟩
  rw [hlen, ceilDiv_eq_one hd hdc]

theorem generateDateRanges_count_contig_witness :
    (generateDateRanges 7 3).length = ceilDiv 3 7
    ∧ contig 0 (generateDateRanges 7 3) = true
    ∧ (3 ≤ 7 → (generateDateRanges 7 3).length = 1) :=
  generateDateRanges_count_contig 7 3 (by decide) (by decide)

/-- C2 counterexample.  The claim says that for `totalDays = 30`,
`chunkSizeDays = 7` the five ranges span `7,7,7,7,2` days, the spans
summing to `totalDays`.  On the code the last range is capped at
`today + 30` *inclusive*, so it spans 3 days and the spans sum to 31. -/
theorem generateDateRanges_spans_30_7_counterexample :
    (generateDateRanges 7 30).map rangeSpan = [7, 7, 7, 7, 3]
    ∧ (generateDateRanges 7 30).map rangeSpan ≠ [7, 7, 7, 7, 2]
    ∧ ((generateDateRanges 7 30).map rangeSpan).sum = 31 := by decide

/-- C2 amended.  Every range spans exactly `chunkSizeDays` days
except the last; when `chunkSizeDays` divides `totalDays` the last range
also spans `chunkSizeDays` and the spans sum to `totalDays`, otherwise
the last range spans `totalDays % chunkSizeDays + 1` days and the spans
sum to `totalDays + 1` (the code caps the last range at
`today + totalDays` inclusive, one day past an exact `totalDays`-day
cover).  In particular for `totalDays = 30`, `chunkSizeDays = 7` the
five ranges span `7,7,7,7,3` days. -/
theorem generateDateRanges_spans (c d : ℕ) (hc : 1 ≤ c) (hd : 1 ≤ d) :
    (generateDateRanges c d).map rangeSpan
      = List.replicate (ceilDiv d c - 1) c
        ++ [if d % c = 0 then c else d % c + 1]
    ∧ ((generateDateRanges c d).map rangeSpan).sum
      = (if d % c = 0 then d else d + 1) := by
  have hspans := genRangesGo_spans c hc d (d + 1) 0 (by omega) (by omega)
  rw [Nat.sub_zero] at hspans
  unfold generateDateRanges
  refine ⟨hspans, ?_⟩
  rw [hspans, List.sum_append, List.sum_replicate, smul_eq_mul]
  simp only [List.sum_cons, List.sum_nil]
  have hdm := Nat.div_add_mod d c
  by_cases hmod : d % c = 0
  · rw [if_pos hmod, if_pos hmod, ceilDiv_of_dvd hc hd hmod]
    have hq : 1 ≤ d / c := by
      rcases Nat.lt_or_ge d c with hlt | hge
      · exact absurd (Nat.mod_eq_of_lt hlt) (by omega)
      · exact Nat.one_le_div_iff (by omega) |>.mpr hge
    have hsub : (d / c - 1) * c = d / c * c - c := by rw [Nat.sub_mul, one_mul]
    have hle : c ≤ d / c * c := Nat.le_mul_of_pos_left c hq
    have hmul : d / c * c = c * (d / c) := Nat.mul_comm _ _
    omega
  · rw [if_neg hmod, if_neg hmod, ceilDiv_of_not_dvd hc hmod, Nat.add_sub_cancel]
    have hmul : d / c * c = c * (d / c) := Nat.mul_comm _ _
    omega

theorem generateDateRanges_spans_witness :
    (generateDateRanges 7 30).map rangeSpan
      = List.replicate (ceilDiv 30 7 - 1) 7
        ++ [if 30 % 7 = 0 then 7 else 30 % 7 + 1]
    ∧ ((generateDateRanges 7 30).map rangeSpan).sum
      = (if 30 % 7 = 0 then 30 else 30 + 1) :=
  generateDateRanges_spans 7 30 (by decide) (by decide)

/-! ## Percentile Statistics Engine (`utils/stats-utils.ts`, `calculatePercentiles`)

Samples are `ℚ` (exact JS-number model).  The source operation
`Math.sqrt(variance)` is the one irrational operation: the metrics
record therefore carries the radicand `variance` (line 21 of the
source) and `PerformanceMetrics.stdDev` exposes source line 22
as the real square root of that field. -/

structure PerformanceMetrics where
  p0 : ℚ
  p25 : ℚ
  p50 : ℚ
  p75 : ℚ
  p90 : ℚ
  p95 : ℚ
  p99 : ℚ
  p100 : ℚ
  mean : ℚ
  variance : ℚ
deriving DecidableEq, Repr

/-- Embeds `stdDev = Math.sqrt(variance)` (stats-utils.ts line 22). -/
noncomputable def PerformanceMetrics.stdDev (m : PerformanceMetrics) : ℝ :=
  Real.sqrt (m.variance : ℝ)

/-- The inner `percentile` closure of `calculatePercentiles`:
`index = (len - 1) * p`, `lower = Math.floor(index)`,
`upper = Math.ceil(index)`, `weight = index % 1`; return the element at
`lower` when `lower === upper`, else interpolate.  (`index % 1` equals
`index - ⌊index⌋` for the non-negative indices produced by the claim
inputs.) -/
def percentileOf (sorted : List ℚ) (p : ℚ) : ℚ :=
  let len := sorted.length
  let index : ℚ := ((len : ℚ) - 1) * p
  let lower : ℤ := ⌊index⌋
  let upper : ℤ := ⌈index⌉
  let weight : ℚ := index - ⌊index⌋
  if lower = upper then sorted.getD lower.toNat 0
  else sorted.getD lower.toNat 0 * (1 - weight) + sorted.getD upper.toNat 0 * weight

/-- Body of `calculatePercentiles` after the sort: `sorted` is the
ascending copy of `values`, `values` the original caller list (used
for `mean` and `variance` exactly as in the source). -/
def calcMetrics (sorted values : List ℚ) : PerformanceMetrics :=
  let len := sorted.length
  let mean : ℚ := values.sum / (len : ℚ)
  let variance : ℚ := (values.map (fun val => (val - mean) ^ 2)).sum / (len : ℚ)
  { p0 := sorted.getD 0 0
    p25 := percentileOf sorted 0.25
    p50 := percentileOf sorted 0.50
    p75 := percentileOf sorted 0.75
    p90 := percentileOf sorted 0.90
    p95 := percentileOf sorted 0.95
    p99 := percentileOf sorted 0.99
    p100 := sorted.getD (len - 1) 0
    mean := mean
    variance := variance }

/-- Embeds `calculatePercentiles(values)`: sort a fresh ascending copy
(`[...values].sort((a, b) => a - b)`) and compute the metrics. -/
def calculatePercentiles (values : List ℚ) : PerformanceMetrics :=
  calcMetrics (List.insertionSort (fun a b => a ≤ b) values) values

/-- The interpolation expression of the `percentile` closure at
fractional index `x` (the `else` branch; at integral `x` it collapses
to the element at `x`). -/
def interpAt (l : List ℚ) (x : ℚ) : ℚ :=
  l.getD ⌊x⌋.toNat 0 * (1 - Int.fract x) + l.getD ⌈x⌉.toNat 0 * Int.fract x

theorem percentileOf_eq_interp (sorted : List ℚ) (p : ℚ) :
    percentileOf sorted p = interpAt sorted (((sorted.length : ℚ) - 1) * p) := by
  unfold percentileOf interpAt Int.fract
  set x : ℚ := ((sorted.length : ℚ) - 1) * p with hx
  by_cases h : ⌊x⌋ = ⌈x⌉
  · rw [if_pos h]
    have hfl : (⌊x⌋ : ℚ) = x := by
      have h1 := Int.floor_le x
      have h2 := Int.le_ceil x
      rw [← h] at h2
      exact le_antisymm h1 h2
    rw [hfl, ← h]
    ring
  · rw [if_neg h]

theorem sorted_getD_mono {l : List ℚ} (hs : List.Sorted (fun a b : ℚ => a ≤ b) l)
    {i j : ℕ} (hij : i ≤ j) (hj : j < l.length) : l.getD i 0 ≤ l.getD j 0 := by
  have hi : i < l.length := lt_of_le_of_lt hij hj
  rw [List.getD_eq_get l 0 hi, List.getD_eq_get l 0 hj]
  exact hs.rel_get_of_le hij

theorem interpAt_le_ceil {l : List ℚ} (hs : List.Sorted (fun a b : ℚ => a ≤ b) l)
    {x : ℚ} (hx : 0 ≤ x) (hxl : x ≤ (l.length : ℚ) - 1) :
    interpAt l x ≤ l.getD ⌈x⌉.toNat 0 := by
  have hcl : ⌈x⌉ ≤ (l.length : ℤ) - 1 := by
    rw [Int.ceil_le]; push_cast; exact hxl
  have hlen : 1 ≤ l.length := by
    by_contra hl
    push_neg at hl
    interval_cases hll : l.length <;> simp_all <;> linarith
  have hcn : ⌈x⌉.toNat < l.length := by omega
  have hfc : ⌊x⌋.toNat ≤ ⌈x⌉.toNat := Int.toNat_le_toNat (Int.floor_le_ceil x)
  have hv := sorted_getD_mono hs hfc hcn
  have hw0 : 0 ≤ Int.fract x := Int.fract_nonneg x
  have hw1 : Int.fract x < 1 := Int.fract_lt_one x
  unfold interpAt
  nlinarith

theorem floor_le_interpAt {l : List ℚ} (hs : List.Sorted (fun a b : ℚ => a ≤ b) l)
    {x : ℚ} (hx : 0 ≤ x) (hxl : x ≤ (l.length : ℚ) - 1) :
    l.getD ⌊x⌋.toNat 0 ≤ interpAt l x := by
  have hcl : ⌈x⌉ ≤ (l.length : ℤ) - 1 := by
    rw [Int.ceil_le]; push_cast; exact hxl
  have hlen : 1 ≤ l.length := by
    by_contra hl
    push_neg at hl
    interval_cases hll : l.length <;> simp_all <;> linarith
  have hcn : ⌈x⌉.toNat < l.length := by omega
  have hfc : ⌊x⌋.toNat ≤ ⌈x⌉.toNat := Int.toNat_le_toNat (Int.floor_le_ceil x)
  have hv := sorted_getD_mono hs hfc hcn
  have hw0 : 0 ≤ Int.fract x := Int.fract_nonneg x
  have hw1 : Int.fract x < 1 := Int.fract_lt_one x
  unfold interpAt
  nlinarith

theorem interpAt_mono {l : List ℚ} (hs : List.Sorted (fun a b : ℚ => a ≤ b) l)
    {x y : ℚ} (hx : 0 ≤ x) (hxy : x ≤ y) (hyl : y ≤ (l.length : ℚ) - 1) :
    interpAt l x ≤ interpAt l y := by
  have hy : 0 ≤ y := le_trans hx hxy
  have hxl : x ≤ (l.length : ℚ) - 1 := le_trans hxy hyl
  have hcly : ⌈y⌉ ≤ (l.length : ℤ) - 1 := by
    rw [Int.ceil_le]; push_cast; exact hyl
  have hlen : 1 ≤ l.length := by
    by_contra hl
    push_neg at hl
    interval_cases hll : l.length <;> simp_all <;> linarith
  by_cases hmid : ⌈x⌉ ≤ ⌊y⌋
  · -- `x` and `y` are separated by an integer index
    have h1 : interpAt l x ≤ l.getD ⌈x⌉.toNat 0 := interpAt_le_ceil hs hx hxl
    have h3 : l.getD ⌊y⌋.toNat 0 ≤ interpAt l y := floor_le_interpAt hs hy hyl
    have hfn : ⌊y⌋.toNat < l.length := by
      have : ⌊y⌋ ≤ ⌈y⌉ := Int.floor_le_ceil y
      omega
    have h2 : l.getD ⌈x⌉.toNat 0 ≤ l.getD ⌊y⌋.toNat 0 :=
      sorted_getD_mono hs (Int.toNat_le_toNat hmid) hfn
    linarith
  · -- same unit interval: floors and ceils coincide
    push_neg at hmid
    have hfl : ⌊x⌋ ≤ ⌊y⌋ := Int.floor_le_floor hxy
    have hcl : ⌈x⌉ ≤ ⌈y⌉ := Int.ceil_le_ceil hxy
    have hcy : ⌈y⌉ ≤ ⌊y⌋ + 1 := Int.ceil_le_floor_add_one y
    have hcx : ⌈x⌉ ≤ ⌊x⌋ + 1 := Int.ceil_le_floor_add_one x
    have hceq : ⌈x⌉ = ⌈y⌉ := by omega
    have hfeq : ⌊x⌋ = ⌊y⌋ := by omega
    have hwd : Int.fract y - Int.fract x = y - x := by
      unfold Int.fract
      rw [hfeq]
      ring
    have hcn : ⌈x⌉.toNat < l.length := by
      have : ⌈x⌉ ≤ (l.length : ℤ) - 1 := hceq ▸ hcly
      omega
    have hfc : ⌊x⌋.toNat ≤ ⌈x⌉.toNat := Int.toNat_le_toNat (Int.floor_le_ceil x)
    have hv := sorted_getD_mono hs hfc hcn
    unfold interpAt
    rw [← hceq, ← hfeq]
    nlinarith

theorem percentileOf_mono {l : List ℚ} (hs : List.Sorted (fun a b : ℚ => a ≤ b) l)
    (hne : l ≠ []) {p q : ℚ} (hp : 0 ≤ p) (hpq : p ≤ q) (hq : q ≤ 1) :
    percentileOf l p ≤ percentileOf l q := by
  have hlen : 1 ≤ l.length := List.length_pos.mpr hne
  have hlen1 : (0 : ℚ) ≤ (l.length : ℚ) - 1 := by
    have : (1 : ℚ) ≤ (l.length : ℚ) := by exact_mod_cast hlen
    linarith
  rw [percentileOf_eq_interp, percentileOf_eq_interp]
  apply interpAt_mono hs (mul_nonneg hlen1 hp)
    (mul_le_mul_of_nonneg_left hpq hlen1)
  calc ((l.length : ℚ) - 1) * q ≤ ((l.length : ℚ) - 1) * 1 :=
        mul_le_mul_of_nonneg_left hq hlen1
  _ = (l.length : ℚ) - 1 := mul_one _

theorem percentileOf_zero (l : List ℚ) : percentileOf l 0 = l.getD 0 0 := by
  unfold percentileOf
  norm_num

theorem percentileOf_one (l : List ℚ) (hne : l ≠ []) :
    percentileOf l 1 = l.getD (l.length - 1) 0 := by
  have hlen : 1 ≤ l.length := List.length_pos.mpr hne
  have hcast : ((l.length : ℚ) - 1) * 1 = ((l.length - 1 : ℕ) : ℤ) := by
    push_cast [hlen]
    ring
  simp only [percentileOf]
  rw [hcast]
  norm_num

theorem percentileOf_singleton (x p : ℚ) : percentileOf [x] p = x := by
  unfold percentileOf
  norm_num

/-- C5.  For a non-empty sample list, every percentile field of
`calculatePercentiles` is the linear-interpolation order statistic of
the ascending-sorted samples at its fraction (the directly-indexed `p0`
and `p100` fields included), `mean` is the arithmetic mean, `stdDev` is
the population (divide-by-`n`) standard deviation (non-negative, its
square the population variance), and for the samples `[1..10]`:
`p50 = 5.5`, `mean = 5.5`, `p0 = 1`, `p100 = 10`. -/
theorem calculatePercentiles_spec (values : List ℚ) (h : values ≠ []) :
    ((calculatePercentiles values).p0
        = percentileOf (List.insertionSort (fun a b : ℚ => a ≤ b) values) 0
      ∧ (calculatePercentiles values).p25
        = percentileOf (List.insertionSort (fun a b : ℚ => a ≤ b) values) 0.25
      ∧ (calculatePercentiles values).p50
        = percentileOf (List.insertionSort (fun a b : ℚ => a ≤ b) values) 0.50
      ∧ (calculatePercentiles values).p75
        = percentileOf (List.insertionSort (fun a b : ℚ => a ≤ b) values) 0.75
      ∧ (calculatePercentiles values).p90
        = percentileOf (List.insertionSort (fun a b : ℚ => a ≤ b) values) 0.90
      ∧ (calculatePercentiles values).p95
        = percentileOf (List.insertionSort (fun a b : ℚ => a ≤ b) values) 0.95
      ∧ (calculatePercentiles values).p99
        = percentileOf (List.insertionSort (fun a b : ℚ => a ≤ b) values) 0.99
      ∧ (calculatePercentiles values).p100
        = percentileOf (List.insertionSort (fun a b : ℚ => a ≤ b) values) 1)
    ∧ (calculatePercentiles values).mean = values.sum / (values.length : ℚ)
    ∧ (calculatePercentiles values).stdDev ^ 2
        = (((values.map
              (fun val => (val - values.sum / (values.length : ℚ)) ^ 2)).sum
            / (values.length : ℚ) : ℚ) : ℝ)
    ∧ 0 ≤ (calculatePercentiles values).stdDev
    ∧ (calculatePercentiles [1, 2, 3, 4, 5, 6, 7, 8, 9, 10]).p50 = 5.5
    ∧ (calculatePercentiles [1, 2, 3, 4, 5, 6, 7, 8, 9, 10]).mean = 5.5
    ∧ (calculatePercentiles [1, 2, 3, 4, 5, 6, 7, 8, 9, 10]).p0 = 1
    ∧ (calculatePercentiles [1, 2, 3, 4, 5, 6, 7, 8, 9, 10]).p100 = 10 := by
  have hne : List.insertionSort (fun a b : ℚ => a ≤ b) values ≠ [] := by
    intro habs
    have := congrArg List.length habs
    rw [List.length_insertionSort] at this
    exact h (List.length_eq_zero.mp this)
  have hmean : (calculatePercentiles values).mean
      = values.sum / (values.length : ℚ) := by
    show values.sum
        / ((List.insertionSort (fun a b : ℚ => a ≤ b) values).length : ℚ) = _
    rw [List.length_insertionSort]
  have hvar : (calculatePercentiles values).variance
      = (values.map (fun val => (val - values.sum / (values.length : ℚ)) ^ 2)).sum
        / (values.length : ℚ) := by
    show (values.map
          (fun val => (val - values.sum
            / ((List.insertionSort (fun a b : ℚ => a ≤ b) values).length : ℚ)) ^ 2)).sum
        / ((List.insertionSort (fun a b : ℚ => a ≤ b) values).length : ℚ) = _
    rw [List.length_insertionSort]
  have hvarnn : (0 : ℚ) ≤ (calculatePercentiles values).variance := by
    rw [hvar]
    apply div_nonneg
    · apply List.sum_nonneg
      intro a ha
      obtain ⟨v, _, rfl⟩ := List.mem_map.mp ha
      positivity
    · positivity
  have hsorted10 : List.insertionSort (fun a b : ℚ => a ≤ b)
      [1, 2, 3, 4, 5, 6, 7, 8, 9, 10] = [1, 2, 3, 4, 5, 6, 7, 8, 9, 10] := by
    apply List.Sorted.insertionSort_eq
    norm_num [List.sorted_cons]
  refine ⟨⟨(percentileOf_zero _).symm, rfl, rfl, rfl, rfl, rfl, rfl, ?_⟩,
    hmean, ?_, Real.sqrt_nonneg _, ?_, ?_, ?_, ?_⟩
  · exact (percentileOf_one _ hne).symm
  · unfold PerformanceMetrics.stdDev
    rw [Real.sq_sqrt (by exact_mod_cast hvarnn), hvar]
  · show percentileOf (List.insertionSort (fun a b : ℚ => a ≤ b)
        [1, 2, 3, 4, 5, 6, 7, 8, 9, 10]) 0.50 = 5.5
    rw [hsorted10]
    have hceil : ⌈(9 / 2 : ℚ)⌉ = 5 := by rw [Int.ceil_eq_iff] <;> norm_num
    simp only [percentileOf]
    norm_num [hceil]
    show (5 : ℚ) * (1 / 2) + (6 : ℚ) * (1 / 2) = 11 / 2
    norm_num
  · show List.sum [1, 2, 3, 4, 5, 6, 7, 8, 9, 10]
        / ((List.insertionSort (fun a b : ℚ => a ≤ b)
            [1, 2, 3, 4, 5, 6, 7, 8, 9, 10]).length : ℚ) = 5.5
    rw [hsorted10]
    norm_num [List.sum_cons]
  · show (List.insertionSort (fun a b : ℚ => a ≤ b)
        [1, 2, 3, 4, 5, 6, 7, 8, 9, 10]).getD 0 0 = 1
    rw [hsorted10]
    rfl
  · show (List.insertionSort (fun a b : ℚ => a ≤ b)
          [1, 2, 3, 4, 5, 6, 7, 8, 9, 10]).getD
        ((List.insertionSort (fun a b : ℚ => a ≤ b)
          [1, 2, 3, 4, 5, 6, 7, 8, 9, 10]).length - 1) 0 = 10
    rw [hsorted10]
    rfl

theorem calculatePercentiles_spec_witness :
    (calculatePercentiles [1, 2, 3, 4, 5, 6, 7, 8, 9, 10]).p50 = 5.5
    ∧ (calculatePercentiles [1, 2, 3, 4, 5, 6, 7, 8, 9, 10]).mean = 5.5
    ∧ (calculatePercentiles [1, 2, 3, 4, 5, 6, 7, 8, 9, 10]).p0 = 1
    ∧ (calculatePercentiles [1, 2, 3, 4, 5, 6, 7, 8, 9, 10]).p100 = 10 := by
  have hs := calculatePercentiles_spec [1, 2, 3, 4, 5, 6, 7, 8, 9, 10]
    (by simp)
  exact ⟨hs.2.2.2.2.1, hs.2.2.2.2.2.1, hs.2.2.2.2.2.2.1, hs.2.2.2.2.2.2.2⟩

/-- C6.  For a non-empty sample list, `p0` is the minimum and `p100`
the maximum of the samples, the returned percentiles are monotonically
non-decreasing in `p`, and for a single-element sample list every
percentile and the mean equal that element and `stdDev = 0`. -/
theorem calculatePercentiles_order (values : List ℚ) (h : values ≠ []) :
    ((calculatePercentiles values).p0 ∈ values
      ∧ ∀ v ∈ values, (calculatePercentiles values).p0 ≤ v)
    ∧ ((calculatePercentiles values).p100 ∈ values
      ∧ ∀ v ∈ values, v ≤ (calculatePercentiles values).p100)
    ∧ (calculatePercentiles values).p0 ≤ (calculatePercentiles values).p25
    ∧ (calculatePercentiles values).p25 ≤ (calculatePercentiles values).p50
    ∧ (calculatePercentiles values).p50 ≤ (calculatePercentiles values).p75
    ∧ (calculatePercentiles values).p75 ≤ (calculatePercentiles values).p90
    ∧ (calculatePercentiles values).p90 ≤ (calculatePercentiles values).p95
    ∧ (calculatePercentiles values).p95 ≤ (calculatePercentiles values).p99
    ∧ (calculatePercentiles values).p99 ≤ (calculatePercentiles values).p100
    ∧ (∀ x : ℚ, values = [x] →
        (calculatePercentiles values).p0 = x
        ∧ (calculatePercentiles values).p25 = x
        ∧ (calculatePercentiles values).p50 = x
        ∧ (calculatePercentiles values).p75 = x
        ∧ (calculatePercentiles values).p90 = x
        ∧ (calculatePercentiles values).p95 = x
        ∧ (calculatePercentiles values).p99 = x
        ∧ (calculatePercentiles values).p100 = x
        ∧ (calculatePercentiles values).mean = x
        ∧ (calculatePercentiles values).stdDev = 0) := by
  have hs : List.Sorted (fun a b : ℚ => a ≤ b)
      (List.insertionSort (fun a b : ℚ => a ≤ b) values) :=
    List.sorted_insertionSort _ values
  have hperm := List.perm_insertionSort (fun a b : ℚ => a ≤ b) values
  have hlen : 1 ≤ (List.insertionSort (fun a b : ℚ => a ≤ b) values).length := by
    rw [List.length_insertionSort]
    exact List.length_pos.mpr h
  have hne : List.insertionSort (fun a b : ℚ => a ≤ b) values ≠ [] := by
    intro habs
    rw [habs] at hlen
    simp at hlen
  have hspec := calculatePercentiles_spec values h
  obtain ⟨⟨e0, e25, e50, e75, e90, e95, e99, e100⟩, _⟩ := hspec
  have mono : ∀ p q : ℚ, 0 ≤ p → p ≤ q → q ≤ 1 →
      percentileOf (List.insertionSort (fun a b : ℚ => a ≤ b) values) p
        ≤ percentileOf (List.insertionSort (fun a b : ℚ => a ≤ b) values) q :=
    fun p q hp hpq hq => percentileOf_mono hs hne hp hpq hq
  have hmemD : ∀ i : ℕ, i < (List.insertionSort (fun a b : ℚ => a ≤ b) values).length →
      (List.insertionSort (fun a b : ℚ => a ≤ b) values).getD i 0 ∈ values := by
    intro i hi
    rw [List.getD_eq_getElem _ _ hi]
    exact hperm.mem_iff.mp (List.getElem_mem _)
  refine ⟨⟨?_, ?_⟩, ⟨?_, ?_⟩, ?_, ?_, ?_, ?_, ?_, ?_, ?_, ?_⟩
  · exact hmemD 0 (by omega)
  · intro v hv
    obtain ⟨i, hi⟩ := List.mem_iff_get.mp (hperm.mem_iff.mpr hv)
    show (List.insertionSort (fun a b : ℚ => a ≤ b) values).getD 0 0 ≤ v
    rw [← hi, ← List.getD_eq_get _ 0 i.isLt]
    exact sorted_getD_mono hs (Nat.zero_le _) i.isLt
  · show (List.insertionSort (fun a b : ℚ => a ≤ b) values).getD
        ((List.insertionSort (fun a b : ℚ => a ≤ b) values).length - 1) 0 ∈ values
    exact hmemD _ (by omega)
  · intro v hv
    obtain ⟨i, hi⟩ := List.mem_iff_get.mp (hperm.mem_iff.mpr hv)
    show v ≤ (List.insertionSort (fun a b : ℚ => a ≤ b) values).getD
        ((List.insertionSort (fun a b : ℚ => a ≤ b) values).length - 1) 0
    rw [← hi, ← List.getD_eq_get _ 0 i.isLt]
    exact sorted_getD_mono hs (by have := i.isLt; omega) (by omega)
  · rw [e0, e25]; exact mono 0 0.25 (by norm_num) (by norm_num) (by norm_num)
  · rw [e25, e50]; exact mono 0.25 0.50 (by norm_num) (by norm_num) (by norm_num)
  · rw [e50, e75]; exact mono 0.50 0.75 (by norm_num) (by norm_num) (by norm_num)
  · rw [e75, e90]; exact mono 0.75 0.90 (by norm_num) (by norm_num) (by norm_num)
  · rw [e90, e95]; exact mono 0.90 0.95 (by norm_num) (by norm_num) (by norm_num)
  · rw [e95, e99]; exact mono 0.95 0.99 (by norm_num) (by norm_num) (by norm_num)
  · rw [e99, e100]; exact mono 0.99 1 (by norm_num) (by norm_num) (by norm_num)
  · intro x hx
    subst hx
    have hmean1 : (calculatePercentiles [x]).mean = x := by
      show List.sum [x] / ((List.insertionSort (fun a b : ℚ => a ≤ b) [x]).length : ℚ) = x
      simp
    have hvar1 : (calculatePercentiles [x]).variance = 0 := by
      show (List.map (fun val => (val - List.sum [x]
            / ((List.insertionSort (fun a b : ℚ => a ≤ b) [x]).length : ℚ)) ^ 2) [x]).sum
          / ((List.insertionSort (fun a b : ℚ => a ≤ b) [x]).length : ℚ) = 0
      simp
    refine ⟨rfl, percentileOf_singleton x 0.25, percentileOf_singleton x 0.50,
      percentileOf_singleton x 0.75, percentileOf_singleton x 0.90,
      percentileOf_singleton x 0.95, percentileOf_singleton x 0.99, rfl,
      hmean1, ?_⟩
    unfold PerformanceMetrics.stdDev
    rw [hvar1]
    simp

theorem calculatePercentiles_order_witness :
    ((calculatePercentiles [4]).p0 ∈ ([4] : List ℚ)
      ∧ ∀ v ∈ ([4] : List ℚ), (calculatePercentiles [4]).p0 ≤ v)
    ∧ (calculatePercentiles [4]).p50 = 4
    ∧ (calculatePercentiles [4]).stdDev = 0 := by
  have hs := calculatePercentiles_order [4] (by simp)
  have hsingle := hs.2.2.2.2.2.2.2.2.2 4 rfl
  exact ⟨hs.1, hsingle.2.2.1, hsingle.2.2.2.2.2.2.2.2.2⟩

/-! ## IEEE special-value model of the unguarded divisions

`calculatePercentiles` divides by the sample count without guarding
against an empty list (stats-utils.ts lines 20-22).  The exact-`ℚ`
model above cannot express the resulting `NaN`, so the `mean`/`stdDev`
pipeline is re-embedded here over a JS-number type that carries the
IEEE special values explicitly (finite magnitudes are exact reals:
rounding is irrelevant to special-value propagation, and signed zeros
are collapsed, which only affects infinity signs never reached here). -/

inductive JSNum where
  | num : ℝ → JSNum
  | nan : JSNum
  | posInf : JSNum
  | negInf : JSNum

noncomputable def jsAdd : JSNum → JSNum → JSNum
  | JSNum.num a, JSNum.num b => JSNum.num (a + b)
  | JSNum.nan, _ => JSNum.nan
  | _, JSNum.nan => JSNum.nan
  | JSNum.posInf, JSNum.negInf => JSNum.nan
  | JSNum.negInf, JSNum.posInf => JSNum.nan
  | JSNum.posInf, _ => JSNum.posInf
  | _, JSNum.posInf => JSNum.posInf
  | JSNum.negInf, _ => JSNum.negInf
  | _, JSNum.negInf => JSNum.negInf

noncomputable def jsSub : JSNum → JSNum → JSNum
  | JSNum.num a, JSNum.num b => JSNum.num (a - b)
  | JSNum.nan, _ => JSNum.nan
  | _, JSNum.nan => JSNum.nan
  | JSNum.posInf, JSNum.posInf => JSNum.nan
  | JSNum.negInf, JSNum.negInf => JSNum.nan
  | JSNum.posInf, _ => JSNum.posInf
  | JSNum.negInf, _ => JSNum.negInf
  | _, JSNum.posInf => JSNum.negInf
  | _, JSNum.negInf => JSNum.posInf

noncomputable def jsMul : JSNum → JSNum → JSNum
  | JSNum.num a, JSNum.num b => JSNum.num (a * b)
  | JSNum.nan, _ => JSNum.nan
  | _, JSNum.nan => JSNum.nan
  | JSNum.posInf, JSNum.posInf => JSNum.posInf
  | JSNum.posInf, JSNum.negInf => JSNum.negInf
  | JSNum.negInf, JSNum.posInf => JSNum.negInf
  | JSNum.negInf, JSNum.negInf => JSNum.posInf
  | JSNum.posInf, JSNum.num b =>
      if b = 0 then JSNum.nan else if 0 < b then JSNum.posInf else JSNum.negInf
  | JSNum.num a, JSNum.posInf =>
      if a = 0 then JSNum.nan else if 0 < a then JSNum.posInf else JSNum.negInf
  | JSNum.negInf, JSNum.num b =>
      if b = 0 then JSNum.nan else if 0 < b then JSNum.negInf else JSNum.posInf
  | JSNum.num a, JSNum.negInf =>
      if a = 0 then JSNum.nan else if 0 < a then JSNum.negInf else JSNum.posInf

noncomputable def jsDiv : JSNum → JSNum → JSNum
  | JSNum.num a, JSNum.num b =>
      if b = 0 then
        if a = 0 then JSNum.nan else if 0 < a then JSNum.posInf else JSNum.negInf
      else JSNum.num (a / b)
  | JSNum.nan, _ => JSNum.nan
  | _, JSNum.nan => JSNum.nan
  | JSNum.posInf, JSNum.posInf => JSNum.nan
  | JSNum.posInf, JSNum.negInf => JSNum.nan
  | JSNum.negInf, JSNum.posInf => JSNum.nan
  | JSNum.negInf, JSNum.negInf => JSNum.nan
  | JSNum.posInf, JSNum.num b => if 0 ≤ b then JSNum.posInf else JSNum.negInf
  | JSNum.negInf, JSNum.num b => if 0 ≤ b then JSNum.negInf else JSNum.posInf
  | JSNum.num _, JSNum.posInf => JSNum.num 0
  | JSNum.num _, JSNum.negInf => JSNum.num 0

noncomputable def jsSqrt : JSNum → JSNum
  | JSNum.num a => if a < 0 then JSNum.nan else JSNum.num (Real.sqrt a)
  | JSNum.nan => JSNum.nan
  | JSNum.posInf => JSNum.posInf
  | JSNum.negInf => JSNum.nan

/-- Embeds line 20, `values.reduce((a, b) => a + b, 0) / len` over JS numbers. -/
noncomputable def jsMean (values : List ℝ) : JSNum :=
  jsDiv (values.foldl (fun a b => jsAdd a (JSNum.num b)) (JSNum.num 0))
    (JSNum.num (values.length : ℝ))

/-- Embeds line 21, `values.reduce((sum, val) => sum + Math.pow(val - mean, 2), 0) / len`
over JS numbers (`Math.pow(x, 2) = x * x`). -/
noncomputable def jsVariance (values : List ℝ) : JSNum :=
  jsDiv
    (values.foldl
      (fun sum val =>
        jsAdd sum (jsMul (jsSub (JSNum.num val) (jsMean values))
          (jsSub (JSNum.num val) (jsMean values))))
      (JSNum.num 0))
    (JSNum.num (values.length : ℝ))

/-- Embeds line 22, `Math.sqrt(variance)`, over JS numbers. -/
noncomputable def jsStdDev (values : List ℝ) : JSNum :=
  jsSqrt (jsVariance values)

/-- C9.  For an empty sample list the unguarded divisions by the
sample count yield `0 / 0 = NaN` for the mean and for the variance,
and `Math.sqrt(NaN) = NaN` for the standard deviation: the returned
`mean` and `stdDev` are the not-a-number sentinel. -/
theorem calculatePercentiles_empty_nan :
    jsMean [] = JSNum.nan ∧ jsVariance [] = JSNum.nan
    ∧ jsStdDev [] = JSNum.nan := by
  have hmean : jsMean [] = JSNum.nan := by
    show jsDiv (JSNum.num 0) (JSNum.num ((List.length ([] : List ℝ)) : ℝ)) = JSNum.nan
    simp [jsDiv]
  have hvar : jsVariance [] = JSNum.nan := by
    show jsDiv (JSNum.num 0) (JSNum.num ((List.length ([] : List ℝ)) : ℝ)) = JSNum.nan
    simp [jsDiv]
  exact ⟨hmean, hvar, by unfold jsStdDev; rw [hvar]; simp [jsSqrt]⟩

/-! ## Strategy Catalog (`strategy-generator.ts`, cross-product variant)

The catalog module crosses a fixed menu of chunk sizes (restricted to
those at most `daysAhead`) with a fixed menu of concurrency levels,
skipping (`continue`) any pairing whose concurrency exceeds the number
of chunks `Math.ceil(daysAhead / chunkSize)` that pairing would
produce. -/

structure Strategy where
  name : String
  daysPerQuery : ℕ
  concurrency : ℕ
deriving DecidableEq, Repr

def generateDefaultStrategies (daysAhead : ℕ) : List Strategy :=
  let chunkSizes := [1, 2, 3, 5, 7, 10, 14, 21, 30].filter (fun size => size ≤ daysAhead)
  let concurrencyLevels := [1, 3, 5, 10, 20]
  chunkSizes.flatMap (fun chunkSize =>
    (concurrencyLevels.filter (fun concurrency =>
        concurrency ≤ ceilDiv daysAhead chunkSize)).map
      (fun concurrency =>
        { name := toString chunkSize ++ "d-" ++ toString concurrency ++ "c"
          daysPerQuery := chunkSize
          concurrency := concurrency }))

/-- C7.  For `totalDays ≥ 1`, `generateDefaultStrategies` returns
exactly one strategy per pairing of a menu chunk size `≤ totalDays`
with a menu concurrency level `≤ ceil(totalDays / chunkSize)` (sound
and complete membership plus no duplicate pairings), each named
`"<chunkSize>d-<concurrency>c"`; consequently no generated strategy
has `concurrency > ceil(totalDays / chunkSize)`. -/
theorem generateDefaultStrategies_spec (d : ℕ) (hd : 1 ≤ d) :
    (∀ s ∈ generateDefaultStrategies d,
        s.daysPerQuery ∈ [1, 2, 3, 5, 7, 10, 14, 21, 30]
        ∧ s.daysPerQuery ≤ d
        ∧ s.concurrency ∈ [1, 3, 5, 10, 20]
        ∧ s.concurrency ≤ ceilDiv d s.daysPerQuery
        ∧ s.name = toString s.daysPerQuery ++ "d-" ++ toString s.concurrency ++ "c")
    ∧ (∀ c ∈ [1, 2, 3, 5, 7, 10, 14, 21, 30], ∀ k ∈ [1, 3, 5, 10, 20],
        c ≤ d → k ≤ ceilDiv d c →
        (⟨toString c ++ "d-" ++ toString k ++ "c", c, k⟩ : Strategy)
          ∈ generateDefaultStrategies d)
    ∧ ((generateDefaultStrategies d).map
        (fun s => (s.daysPerQuery, s.concurrency))).Nodup := by
  refine ⟨?_, ?_, ?_⟩
  · intro s hs
    simp only [generateDefaultStrategies, List.mem_flatMap, List.mem_map,
      List.mem_filter, decide_eq_true_eq] at hs
    obtain ⟨c, ⟨hc, hcd⟩, k, ⟨hk, hkc⟩, rfl⟩ := hs
    exact ⟨hc, hcd, hk, hkc, rfl⟩
  · intro c hc k hk hcd hkc
    simp only [generateDefaultStrategies, List.mem_flatMap, List.mem_map,
      List.mem_filter, decide_eq_true_eq]
    exact ⟨c, ⟨hc, hcd⟩, k, ⟨hk, hkc⟩, rfl⟩
  · simp only [generateDefaultStrategies, List.map_flatMap, List.map_map]
    rw [List.nodup_flatMap]
    constructor
    · intro c _
      apply List.Nodup.map
      · intro k1 k2 hkk
        simpa using congrArg Prod.snd hkk
      · exact List.Nodup.filter _ (by decide)
    · have hnd : ([1, 2, 3, 5, 7, 10, 14, 21, 30].filter
          (fun size => size ≤ d)).Nodup := List.Nodup.filter _ (by decide)
      apply List.Pairwise.imp ?_ hnd
      intro c1 c2 hne p hp1 hp2
      simp only [List.mem_map, List.mem_filter, Function.comp] at hp1 hp2
      obtain ⟨k1, _, rfl⟩ := hp1
      obtain ⟨k2, _, hk2⟩ := hp2
      exact hne (congrArg Prod.fst hk2).symm

theorem generateDefaultStrategies_spec_witness :
    ((⟨toString 1 ++ "d-" ++ toString 3 ++ "c", 1, 3⟩ : Strategy)
        ∈ generateDefaultStrategies 3)
    ∧ ((generateDefaultStrategies 3).map
        (fun s => (s.daysPerQuery, s.concurrency))).Nodup := by
  have hs := generateDefaultStrategies_spec 3 (by decide)
  exact ⟨hs.2.1 1 (by decide) 3 (by decide) (by decide) (by decide), hs.2.2⟩

/-! ## Bounded Concurrency Executor (`utils/query-executor.ts`,
`executeQueriesWithConcurrency`)

The source builds one thunk per range, then loops over the thunks:
when `inFlight.length >= concurrency` it awaits `Promise.race(inFlight)`,
then starts the next thunk, whose completion callback splices it out of
`inFlight`; finally it awaits `Promise.all(inFlight)`.  Each thunk
catches its own failure and pushes it onto `errors`, successes onto
`results`.

Embedding: operations are their indices `0..K-1`; `outcome i` tells
whether operation `i` succeeds; completion order is adversarial, chosen
by an `oracle` that at the `t`-th race picks which in-flight operation
settles (several operations settling during one suspension is covered
conservatively: the extra settled-but-untracked operations only shrink
the set of genuinely outstanding operations).  A state holds the
in-flight operations and the accumulation collections. -/

structure ExecState where
  inFlight : List ℕ
  results : List ℕ
  errors : List ℕ
deriving DecidableEq, Repr

/-- One operation settles: its `try/catch` pushes onto `results` on
success, `errors` on failure. -/
def settleOp (outcome : ℕ → Bool) (op : ℕ) (s : ExecState) : ExecState :=
  if outcome op then { s with results := op :: s.results }
  else { s with errors := op :: s.errors }

/-- Embeds `await Promise.race(inFlight)`: the oracle pick settles and its
completion callback splices it out of `inFlight`. -/
def settleRace (outcome : ℕ → Bool) (pick : ℕ) (s : ExecState) : ExecState :=
  if s.inFlight.isEmpty then s
  else
    let j := pick % s.inFlight.length
    let op := s.inFlight.getD j 0
    settleOp outcome op { s with inFlight := s.inFlight.eraseIdx j }

/-- The dispatch loop over the remaining thunks (`t` counts races, for
the oracle). -/
def dispatchLoop (outcome : ℕ → Bool) (concurrency : ℕ) (oracle : ℕ → ℕ) :
    List ℕ → ℕ → ExecState → ExecState
  | [], _, s => s
  | i :: rest, t, s =>
    let s1 := if concurrency ≤ s.inFlight.length
      then settleRace outcome (oracle t) s else s
    dispatchLoop outcome concurrency oracle rest (t + 1)
      { s1 with inFlight := s1.inFlight ++ [i] }

/-- Same loop, emitting every intermediate state (before the race,
after the race, and so on), to state the in-flight bound over the whole
run. -/
def dispatchTrace (outcome : ℕ → Bool) (concurrency : ℕ) (oracle : ℕ → ℕ) :
    List ℕ → ℕ → ExecState → List ExecState
  | [], _, s => [s]
  | i :: rest, t, s =>
    let s1 := if concurrency ≤ s.inFlight.length
      then settleRace outcome (oracle t) s else s
    s :: s1 :: dispatchTrace outcome concurrency oracle rest (t + 1)
      { s1 with inFlight := s1.inFlight ++ [i] }

/-- Embeds `await Promise.all(inFlight)`: every remaining in-flight operation
settles. -/
def drainAll (outcome : ℕ → Bool) (s : ExecState) : ExecState :=
  s.inFlight.foldl (fun acc op => settleOp outcome op acc)
    { s with inFlight := [] }

/-- Embeds `executeQueriesWithConcurrency` on `numRanges` chunk operations at
the given concurrency limit, under an adversarial completion oracle. -/
def executeQueriesWithConcurrency (numRanges concurrency : ℕ)
    (outcome : ℕ → Bool) (oracle : ℕ → ℕ) : ExecState :=
  drainAll outcome
    (dispatchLoop outcome concurrency oracle (List.range numRanges) 0 ⟨[], [], []⟩)

/-- All operations a state accounts for. -/
def ExecState.load (s : ExecState) : List ℕ := s.inFlight ++ s.results ++ s.errors

/-- Operation count of a state. -/
def ExecState.total (s : ExecState) : ℕ :=
  s.inFlight.length + s.results.length + s.errors.length

theorem getD_cons_eraseIdx_perm (l : List ℕ) (j : ℕ) (hj : j < l.length) :
    l.Perm (l.getD j 0 :: l.eraseIdx j) := by
  rw [List.getD_eq_getElem _ _ hj, List.eraseIdx_eq_take_drop_succ]
  conv_lhs => rw [← List.take_append_drop j l]
  rw [List.drop_eq_getElem_cons hj]
  exact List.perm_middle

theorem settleOp_inFlight (o : ℕ → Bool) (op : ℕ) (s : ExecState) :
    (settleOp o op s).inFlight = s.inFlight := by
  unfold settleOp
  by_cases h : o op <;> simp [h]

theorem settleOp_acc_perm (o : ℕ → Bool) (op : ℕ) (s : ExecState) :
    ((settleOp o op s).results ++ (settleOp o op s).errors).Perm
      (op :: (s.results ++ s.errors)) := by
  unfold settleOp
  by_cases h : o op
  · simp [h]
  · simp only [h, Bool.false_eq_true, if_false]
    exact List.perm_middle

theorem settleOp_total (o : ℕ → Bool) (op : ℕ) (s : ExecState) :
    (settleOp o op s).total = s.total + 1 := by
  unfold settleOp ExecState.total
  by_cases h : o op <;> simp [h] <;> omega

theorem settleRace_total (o : ℕ → Bool) (p : ℕ) (s : ExecState) :
    (settleRace o p s).total = s.total := by
  unfold settleRace
  by_cases h : s.inFlight.isEmpty
  · simp [h]
  · simp only [h, Bool.false_eq_true, if_false]
    rw [settleOp_total]
    unfold ExecState.total
    simp only []
    have hne : s.inFlight ≠ [] := by
      intro habs; rw [habs] at h; simp at h
    have hlen : 0 < s.inFlight.length := List.length_pos.mpr hne
    have hj : p % s.inFlight.length < s.inFlight.length := Nat.mod_lt _ hlen
    rw [List.length_eraseIdx_of_lt hj]
    omega

theorem settleRace_length (o : ℕ → Bool) (p : ℕ) (s : ExecState)
    (h : s.inFlight ≠ []) :
    (settleRace o p s).inFlight.length = s.inFlight.length - 1 := by
  unfold settleRace
  rw [if_neg (by simpa using h)]
  rw [settleOp_inFlight]
  have hlen : 0 < s.inFlight.length := List.length_pos.mpr h
  exact List.length_eraseIdx_of_lt (Nat.mod_lt _ hlen)

theorem settleRace_load_perm (o : ℕ → Bool) (p : ℕ) (s : ExecState) :
    (settleRace o p s).load.Perm s.load := by
  unfold settleRace
  by_cases h : s.inFlight.isEmpty
  · rw [if_pos h]
  · rw [if_neg h]
    have hne : s.inFlight ≠ [] := by
      intro habs; rw [habs] at h; simp at h
    have hlen : 0 < s.inFlight.length := List.length_pos.mpr hne
    have hj : p % s.inFlight.length < s.inFlight.length := Nat.mod_lt _ hlen
    show (settleOp o (s.inFlight.getD (p % s.inFlight.length) 0)
        { s with inFlight := s.inFlight.eraseIdx (p % s.inFlight.length) }).load.Perm s.load
    have h1 : (settleOp o (s.inFlight.getD (p % s.inFlight.length) 0)
        { s with inFlight := s.inFlight.eraseIdx (p % s.inFlight.length) }).load.Perm
          (s.inFlight.eraseIdx (p % s.inFlight.length)
            ++ (s.inFlight.getD (p % s.inFlight.length) 0 :: (s.results ++ s.errors))) := by
      unfold ExecState.load
      rw [settleOp_inFlight, List.append_assoc]
      exact List.Perm.append_left _ (settleOp_acc_perm o _ _)
    have h2 : (s.inFlight.eraseIdx (p % s.inFlight.length)
        ++ (s.inFlight.getD (p % s.inFlight.length) 0 :: (s.results ++ s.errors))).Perm
          ((s.inFlight.getD (p % s.inFlight.length) 0
            :: s.inFlight.eraseIdx (p % s.inFlight.length)) ++ (s.results ++ s.errors)) :=
      List.perm_middle
    have h3 : ((s.inFlight.getD (p % s.inFlight.length) 0
        :: s.inFlight.eraseIdx (p % s.inFlight.length)) ++ (s.results ++ s.errors)).Perm
          (s.inFlight ++ (s.results ++ s.errors)) :=
      List.Perm.append_right _ (getD_cons_eraseIdx_perm _ _ hj).symm
    have h4 := (h1.trans h2).trans h3
    have h5 : s.load = s.inFlight ++ (s.results ++ s.errors) := by
      unfold ExecState.load
      rw [List.append_assoc]
    rw [h5]
    exact h4

theorem load_push (s1 : ExecState) (i : ℕ) :
    ({ s1 with inFlight := s1.inFlight ++ [i] } : ExecState).load.Perm
      (s1.load ++ [i]) := by
  unfold ExecState.load
  simp only [List.append_assoc]
  exact List.Perm.append_left _
    (List.perm_append_comm.trans (by rw [List.append_assoc]))

theorem dispatchLoop_load_perm (o : ℕ → Bool) (c : ℕ) (oracle : ℕ → ℕ) :
    ∀ (ops : List ℕ) (t : ℕ) (s : ExecState),
      (dispatchLoop o c oracle ops t s).load.Perm (s.load ++ ops) := by
  intro ops
  induction ops with
  | nil => intro t s; rw [dispatchLoop, List.append_nil]
  | cons i rest ih =>
    intro t s
    rw [dispatchLoop]
    by_cases hc : c ≤ s.inFlight.length
    · rw [if_pos hc]
      have h1 := ih (t + 1)
        { settleRace o (oracle t) s with
            inFlight := (settleRace o (oracle t) s).inFlight ++ [i] }
      refine h1.trans ?_
      refine (List.Perm.append_right rest ((load_push _ i).trans
        (List.Perm.append_right [i] (settleRace_load_perm o (oracle t) s)))).trans ?_
      rw [List.append_assoc]
      exact List.Perm.refl _
    · rw [if_neg hc]
      have h1 := ih (t + 1) { s with inFlight := s.inFlight ++ [i] }
      refine h1.trans ?_
      refine (List.Perm.append_right rest (load_push s i)).trans ?_
      rw [List.append_assoc]
      exact List.Perm.refl _

/-- Accumulator classification: successes in `results`, failures in
`errors`. -/
def ExecState.classified (o : ℕ → Bool) (s : ExecState) : Prop :=
  (∀ x ∈ s.results, o x = true) ∧ (∀ x ∈ s.errors, o x = false)

theorem settleOp_classified {o : ℕ → Bool} (op : ℕ) {s : ExecState}
    (h : s.classified o) : (settleOp o op s).classified o := by
  unfold settleOp ExecState.classified
  by_cases hop : o op
  · rw [if_pos hop]
    refine ⟨?_, h.2⟩
    intro x hx
    rcases List.mem_cons.mp hx with rfl | hx
    · exact hop
    · exact h.1 x hx
  · rw [if_neg hop]
    refine ⟨h.1, ?_⟩
    intro x hx
    rcases List.mem_cons.mp hx with rfl | hx
    · exact Bool.not_eq_true _ ▸ (by simpa using hop)
    · exact h.2 x hx

theorem settleRace_classified {o : ℕ → Bool} (p : ℕ) {s : ExecState}
    (h : s.classified o) : (settleRace o p s).classified o := by
  unfold settleRace
  by_cases he : s.inFlight.isEmpty
  · rw [if_pos he]; exact h
  · rw [if_neg he]
    exact settleOp_classified _ h

theorem dispatchLoop_classified (o : ℕ → Bool) (c : ℕ) (oracle : ℕ → ℕ) :
    ∀ (ops : List ℕ) (t : ℕ) (s : ExecState), s.classified o →
      (dispatchLoop o c oracle ops t s).classified o := by
  intro ops
  induction ops with
  | nil => intro t s h; rw [dispatchLoop]; exact h
  | cons i rest ih =>
    intro t s h
    rw [dispatchLoop]
    by_cases hc : c ≤ s.inFlight.length
    · rw [if_pos hc]
      exact ih (t + 1) _ (settleRace_classified (oracle t) h)
    · rw [if_neg hc]
      exact ih (t + 1) _ h

theorem foldl_settleOp_inFlight (o : ℕ → Bool) :
    ∀ (l : List ℕ) (acc : ExecState),
      (l.foldl (fun a op => settleOp o op a) acc).inFlight = acc.inFlight := by
  intro l
  induction l with
  | nil => intro acc; rfl
  | cons x xs ih =>
    intro acc
    rw [List.foldl_cons, ih, settleOp_inFlight]

theorem foldl_settleOp_acc_perm (o : ℕ → Bool) :
    ∀ (l : List ℕ) (acc : ExecState),
      ((l.foldl (fun a op => settleOp o op a) acc).results
        ++ (l.foldl (fun a op => settleOp o op a) acc).errors).Perm
      (l ++ (acc.results ++ acc.errors)) := by
  intro l
  induction l with
  | nil => intro acc; simp
  | cons x xs ih =>
    intro acc
    rw [List.foldl_cons]
    refine (ih (settleOp o x acc)).trans ?_
    refine (List.Perm.append_left xs (settleOp_acc_perm o x acc)).trans ?_
    exact List.perm_middle

theorem foldl_settleOp_classified (o : ℕ → Bool) :
    ∀ (l : List ℕ) (acc : ExecState), acc.classified o →
      (l.foldl (fun a op => settleOp o op a) acc).classified o := by
  intro l
  induction l with
  | nil => intro acc h; exact h
  | cons x xs ih =>
    intro acc h
    rw [List.foldl_cons]
    exact ih _ (settleOp_classified x h)

theorem drainAll_inFlight (o : ℕ → Bool) (s : ExecState) :
    (drainAll o s).inFlight = [] := by
  unfold drainAll
  rw [foldl_settleOp_inFlight]

theorem drainAll_acc_perm (o : ℕ → Bool) (s : ExecState) :
    ((drainAll o s).results ++ (drainAll o s).errors).Perm s.load := by
  unfold drainAll
  refine (foldl_settleOp_acc_perm o s.inFlight _).trans ?_
  unfold ExecState.load
  rw [List.append_assoc]

theorem drainAll_classified {o : ℕ → Bool} {s : ExecState}
    (h : s.classified o) : (drainAll o s).classified o := by
  unfold drainAll
  exact foldl_settleOp_classified o s.inFlight _ h

theorem dispatchTrace_bound (o : ℕ → Bool) (c : ℕ) (oracle : ℕ → ℕ)
    (hc : 1 ≤ c) :
    ∀ (ops : List ℕ) (t : ℕ) (s : ExecState), s.inFlight.length ≤ c →
      ∀ st ∈ dispatchTrace o c oracle ops t s, st.inFlight.length ≤ c := by
  intro ops
  induction ops with
  | nil =>
    intro t s hs st hst
    rw [dispatchTrace] at hst
    rcases List.mem_singleton.mp hst with rfl
    exact hs
  | cons i rest ih =>
    intro t s hs st hst
    rw [dispatchTrace] at hst
    by_cases hfull : c ≤ s.inFlight.length
    · rw [if_pos hfull] at hst
      have hne : s.inFlight ≠ [] := by
        intro habs
        rw [habs] at hfull
        simp at hfull
        omega
      have hrace : (settleRace o (oracle t) s).inFlight.length
          = s.inFlight.length - 1 := settleRace_length o (oracle t) s hne
      rcases List.mem_cons.mp hst with rfl | hst
      · exact hs
      rcases List.mem_cons.mp hst with rfl | hst
      · omega
      · refine ih (t + 1) _ ?_ st hst
        simp only [List.length_append, List.length_cons, List.length_nil]
        omega
    · rw [if_neg hfull] at hst
      push_neg at hfull
      rcases List.mem_cons.mp hst with rfl | hst
      · exact hs
      rcases List.mem_cons.mp hst with rfl | hst
      · exact hs
      · refine ih (t + 1) _ ?_ st hst
        simp only [List.length_append, List.length_cons, List.length_nil]
        omega

theorem dispatchTrace_total (o : ℕ → Bool) (c : ℕ) (oracle : ℕ → ℕ) :
    ∀ (ops : List ℕ) (t : ℕ) (s : ExecState),
      ∀ st ∈ dispatchTrace o c oracle ops t s,
        st.total ≤ s.total + ops.length := by
  intro ops
  induction ops with
  | nil =>
    intro t s st hst
    rw [dispatchTrace] at hst
    rcases List.mem_singleton.mp hst with rfl
    omega
  | cons i rest ih =>
    intro t s st hst
    rw [dispatchTrace] at hst
    have hs1 : (if c ≤ s.inFlight.length
        then settleRace o (oracle t) s else s).total = s.total := by
      by_cases hfull : c ≤ s.inFlight.length
      · rw [if_pos hfull, settleRace_total]
      · rw [if_neg hfull]
    rcases List.mem_cons.mp hst with rfl | hst
    · simp
    rcases List.mem_cons.mp hst with rfl | hst
    · rw [hs1]
      simp
    · have h2 := ih (t + 1) _ st hst
      have hpush : ({ (if c ≤ s.inFlight.length then settleRace o (oracle t) s else s) with
          inFlight := (if c ≤ s.inFlight.length
            then settleRace o (oracle t) s else s).inFlight ++ [i] } : ExecState).total
          = s.total + 1 := by
        rw [← hs1]
        unfold ExecState.total
        simp only [List.length_append, List.length_cons, List.length_nil]
        omega
      rw [hpush] at h2
      simp only [List.length_cons]
      omega

/-- C3.  For `K` operations and a concurrency limit `C ≥ 1`, under
every adversarial completion order: every state of the execution has at
most `min(C, K)` operations outstanding, the call resolves with every
one of the `K` operations settled exactly once (the accumulated
results-plus-errors are a permutation of the operation list), and
nothing remains in flight at resolution. -/
theorem executeQueries_bounded (numRanges concurrency : ℕ)
    (hc : 1 ≤ concurrency) (outcome : ℕ → Bool) (oracle : ℕ → ℕ) :
    (∀ st ∈ dispatchTrace outcome concurrency oracle
        (List.range numRanges) 0 ⟨[], [], []⟩,
        st.inFlight.length ≤ min concurrency numRanges)
    ∧ ((executeQueriesWithConcurrency numRanges concurrency outcome oracle).results
        ++ (executeQueriesWithConcurrency numRanges concurrency outcome oracle).errors).Perm
          (List.range numRanges)
    ∧ (executeQueriesWithConcurrency numRanges concurrency outcome oracle).inFlight
        = [] := by
  refine ⟨?_, ?_, drainAll_inFlight _ _⟩
  · intro st hst
    have h1 := dispatchTrace_bound outcome concurrency oracle hc
      (List.range numRanges) 0 ⟨[], [], []⟩ (by simp) st hst
    have h2 := dispatchTrace_total outcome concurrency oracle
      (List.range numRanges) 0 ⟨[], [], []⟩ st hst
    have h3 : (⟨[], [], []⟩ : ExecState).total = 0 := rfl
    have h4 : st.inFlight.length ≤ st.total := by
      unfold ExecState.total
      omega
    rw [h3, List.length_range] at h2
    exact le_min h1 (by omega)
  · have hperm := dispatchLoop_load_perm outcome concurrency oracle
      (List.range numRanges) 0 ⟨[], [], []⟩
    have hinit : (⟨[], [], []⟩ : ExecState).load = [] := rfl
    rw [hinit, List.nil_append] at hperm
    exact (drainAll_acc_perm outcome _).trans hperm

theorem executeQueries_bounded_witness :
    (∀ st ∈ dispatchTrace (fun _ => true) 2 (fun _ => 0)
        (List.range 3) 0 ⟨[], [], []⟩,
        st.inFlight.length ≤ min 2 3)
    ∧ ((executeQueriesWithConcurrency 3 2 (fun _ => true) (fun _ => 0)).results
        ++ (executeQueriesWithConcurrency 3 2 (fun _ => true) (fun _ => 0)).errors).Perm
          (List.range 3)
    ∧ (executeQueriesWithConcurrency 3 2 (fun _ => true) (fun _ => 0)).inFlight = [] :=
  executeQueries_bounded 3 2 (by decide) (fun _ => true) (fun _ => 0)

/-! ## Optimizer trial loop (`optimizer.ts`, `testStrategy`)

One trial either yields a duration (the batch call resolved) or throws
(modelled as `Except.error`); the loop catches the throw, increments
the error counter, and continues with the next iteration. -/

structure StrategyResult where
  strategy : Strategy
  totalQueries : ℕ
  metrics : PerformanceMetrics
  measurements : List ℚ
  totalTime : ℚ
  averageTimePerQuery : ℚ
  errors : ℕ

/-- Embeds the `for (let i = 0; i < iterations; i++) try/catch` loop: collect
durations of successful trials, count failed ones. -/
def runIterations (trial : ℕ → Except Unit ℚ) (iterations : ℕ) : List ℚ × ℕ :=
  (List.range iterations).foldl
    (fun acc i =>
      match trial i with
      | Except.ok duration => (acc.1 ++ [duration], acc.2)
      | Except.error _ => (acc.1, acc.2 + 1))
    ([], 0)

/-- Embeds `testStrategy` (optimizer.ts lines 14-64) with the batch execution
abstracted to per-trial outcomes. -/
def testStrategy (strat : Strategy) (totalQueries iterations : ℕ)
    (trial : ℕ → Except Unit ℚ) : StrategyResult :=
  let acc := runIterations trial iterations
  let measurements := acc.1
  let totalErrors := acc.2
  let metrics := calculatePercentiles measurements
  let totalTime := measurements.sum
  { strategy := strat
    totalQueries := totalQueries
    metrics := metrics
    measurements := measurements
    totalTime := totalTime
    averageTimePerQuery := totalTime / ((totalQueries : ℚ) * (iterations : ℚ))
    errors := totalErrors }

theorem runIterations_count (trial : ℕ → Except Unit ℚ) (iterations : ℕ) :
    (runIterations trial iterations).1.length
      + (runIterations trial iterations).2 = iterations := by
  unfold runIterations
  have haux : ∀ (l : List ℕ) (acc : List ℚ × ℕ),
      ((l.foldl (fun acc i =>
        match trial i with
        | Except.ok duration => (acc.1 ++ [duration], acc.2)
        | Except.error _ => (acc.1, acc.2 + 1)) acc).1.length
        + (l.foldl (fun acc i =>
        match trial i with
        | Except.ok duration => (acc.1 ++ [duration], acc.2)
        | Except.error _ => (acc.1, acc.2 + 1)) acc).2)
      = acc.1.length + acc.2 + l.length := by
    intro l
    induction l with
    | nil => intro acc; simp
    | cons x xs ih =>
      intro acc
      rw [List.foldl_cons]
      rcases htx : trial x with e | d
      · rw [ih]
        simp [htx]
        omega
      · rw [ih]
        simp [htx]
        omega
  rw [haux]
  simp

/-- C8.  A failing chunk operation is recorded in the executor
error list without making the batch reject or disturbing sibling
chunks: for every outcome assignment and completion order the batch
returns with the successful operations collected in `results` and
exactly the failing ones in `errors` (together all `K` operations).
A trial whose batch call throws is caught by `testStrategy` and counted,
so recorded measurements plus the error count equal the configured
number of iterations. -/
theorem executor_error_isolation (numRanges concurrency : ℕ)
    (hc : 1 ≤ concurrency) (outcome : ℕ → Bool) (oracle : ℕ → ℕ)
    (strat : Strategy) (totalQueries iterations : ℕ)
    (trial : ℕ → Except Unit ℚ) :
    (executeQueriesWithConcurrency numRanges concurrency outcome oracle).results.Perm
        ((List.range numRanges).filter (fun i => outcome i))
    ∧ (executeQueriesWithConcurrency numRanges concurrency outcome oracle).errors.Perm
        ((List.range numRanges).filter (fun i => !outcome i))
    ∧ (testStrategy strat totalQueries iterations trial).measurements.length
        + (testStrategy strat totalQueries iterations trial).errors = iterations := by
  have hperm := (executeQueries_bounded numRanges concurrency hc outcome oracle).2.1
  have hclass : (executeQueriesWithConcurrency numRanges concurrency outcome oracle).classified
      outcome := by
    unfold executeQueriesWithConcurrency
    apply drainAll_classified
    apply dispatchLoop_classified
    exact ⟨fun x hx => (List.not_mem_nil x hx).elim,
      fun x hx => (List.not_mem_nil x hx).elim⟩
  set f := executeQueriesWithConcurrency numRanges concurrency outcome oracle with hf
  have hres : f.results.filter (fun i => outcome i) = f.results :=
    List.filter_eq_self.mpr (by intro a ha; simpa using hclass.1 a ha)
  have hresn : f.errors.filter (fun i => outcome i) = [] :=
    List.filter_eq_nil_iff.mpr (by intro a ha; simpa using hclass.2 a ha)
  have herr : f.errors.filter (fun i => !outcome i) = f.errors :=
    List.filter_eq_self.mpr (by intro a ha; simpa using hclass.2 a ha)
  have herrn : f.results.filter (fun i => !outcome i) = [] :=
    List.filter_eq_nil_iff.mpr (by intro a ha; simpa using hclass.1 a ha)
  refine ⟨?_, ?_, ?_⟩
  · have h1 := hperm.filter (fun i => outcome i)
    rw [List.filter_append, hres, hresn, List.append_nil] at h1
    exact h1
  · have h1 := hperm.filter (fun i => !outcome i)
    rw [List.filter_append, herr, herrn, List.nil_append] at h1
    exact h1
  · exact runIterations_count trial iterations

theorem executor_error_isolation_witness :
    (executeQueriesWithConcurrency 3 2 (fun i => i == 1) (fun _ => 0)).results.Perm
        ((List.range 3).filter (fun i => i == 1))
    ∧ (executeQueriesWithConcurrency 3 2 (fun i => i == 1) (fun _ => 0)).errors.Perm
        ((List.range 3).filter (fun i => !(i == 1)))
    ∧ (testStrategy ⟨"w", 1, 1⟩ 1 4
        (fun i => if i % 2 = 0 then Except.ok 1 else Except.error ())).measurements.length
      + (testStrategy ⟨"w", 1, 1⟩ 1 4
        (fun i => if i % 2 = 0 then Except.ok 1 else Except.error ())).errors = 4 :=
  executor_error_isolation 3 2 (by decide) (fun i => i == 1) (fun _ => 0)
    ⟨"w", 1, 1⟩ 1 4 (fun i => if i % 2 = 0 then Except.ok 1 else Except.error ())

/-! ## Optimizer ranking and recommendation (`optimizer.ts`,
`optimize`, lines 89 and 109)

`results.sort((a, b) => a.metrics.p50 - b.metrics.p50)` followed by
`results.find(r => r.errors === 0) || results[0]`. -/

instance : DecidableRel
    (fun a b : StrategyResult => a.metrics.p50 ≤ b.metrics.p50) :=
  fun a b => inferInstanceAs (Decidable (a.metrics.p50 ≤ b.metrics.p50))

instance : IsTotal StrategyResult
    (fun a b : StrategyResult => a.metrics.p50 ≤ b.metrics.p50) :=
  ⟨fun a b => le_total a.metrics.p50 b.metrics.p50⟩

instance : IsTrans StrategyResult
    (fun a b : StrategyResult => a.metrics.p50 ≤ b.metrics.p50) :=
  ⟨fun _ _ _ hab hbc => le_trans hab hbc⟩

def rankResults (results : List StrategyResult) : List StrategyResult :=
  List.insertionSort (fun a b => a.metrics.p50 ≤ b.metrics.p50) results

def recommendation (results : List StrategyResult) : Option StrategyResult :=
  match (rankResults results).find? (fun r => r.errors == 0) with
  | some r => some r
  | none => (rankResults results).head?

theorem find_zero_err_min (l : List StrategyResult)
    (hs : List.Sorted (fun a b : StrategyResult => a.metrics.p50 ≤ b.metrics.p50) l)
    (rec : StrategyResult) (hf : l.find? (fun r => r.errors == 0) = some rec) :
    rec.errors = 0 ∧ rec ∈ l
    ∧ ∀ r ∈ l, r.errors = 0 → rec.metrics.p50 ≤ r.metrics.p50 := by
  induction l with
  | nil => cases hf
  | cons a t ih =>
    rw [List.find?_cons] at hf
    by_cases ha : a.errors = 0
    · have hbeq : (a.errors == 0) = true := by simpa using ha
      rw [hbeq] at hf
      obtain rfl : a = rec := by injection hf
      refine ⟨ha, List.mem_cons_self _ _, ?_⟩
      intro r hr _
      rcases List.mem_cons.mp hr with rfl | hr
      · exact le_refl _
      · exact List.rel_of_sorted_cons hs r hr
    · have hbeq : (a.errors == 0) = false := by simpa using ha
      rw [hbeq] at hf
      obtain ⟨h0, hmem, hmin⟩ := ih (List.sorted_cons.mp hs).2 hf
      refine ⟨h0, List.mem_cons_of_mem a hmem, ?_⟩
      intro r hr hr0
      rcases List.mem_cons.mp hr with rfl | hr
      · exact absurd hr0 ha
      · exact hmin r hr hr0

theorem sorted_head_min (l : List StrategyResult)
    (hs : List.Sorted (fun a b : StrategyResult => a.metrics.p50 ≤ b.metrics.p50) l)
    (a : StrategyResult) (h : l.head? = some a) :
    ∀ r ∈ l, a.metrics.p50 ≤ r.metrics.p50 := by
  cases l with
  | nil => cases h
  | cons b t =>
    obtain rfl : b = a := by injection h
    intro r hr
    rcases List.mem_cons.mp hr with rfl | hr
    · exact le_refl _
    · exact List.rel_of_sorted_cons hs r hr

/-- C4.  `optimize` ranks the results ascending by `p50` (a sorted
permutation of the input) and recommends the first zero-error result of
that ranking: when some result has zero errors the recommendation has
zero errors and a `p50` no larger than that of any zero-error result; when
every result has at least one error the recommendation has the lowest
`p50` overall. -/
theorem optimize_recommendation (results : List StrategyResult)
    (h : results ≠ []) :
    (rankResults results).Perm results
    ∧ List.Sorted (fun a b : StrategyResult => a.metrics.p50 ≤ b.metrics.p50)
        (rankResults results)
    ∧ ∃ rec, recommendation results = some rec ∧ rec ∈ results
        ∧ ((∃ r ∈ results, r.errors = 0) →
            rec.errors = 0
            ∧ ∀ r ∈ results, r.errors = 0 → rec.metrics.p50 ≤ r.metrics.p50)
        ∧ ((∀ r ∈ results, r.errors ≠ 0) →
            ∀ r ∈ results, rec.metrics.p50 ≤ r.metrics.p50) := by
  have hperm : (rankResults results).Perm results := List.perm_insertionSort _ _
  have hsort : List.Sorted
      (fun a b : StrategyResult => a.metrics.p50 ≤ b.metrics.p50)
      (rankResults results) := List.sorted_insertionSort _ _
  refine ⟨hperm, hsort, ?_⟩
  rcases hfind : (rankResults results).find? (fun r => r.errors == 0)
    with _ | rec
  · -- no zero-error strategy anywhere: fall back to `results[0]`
    have hne : rankResults results ≠ [] := by
      intro habs
      rw [habs] at hperm
      exact h hperm.symm.eq_nil
    obtain ⟨hd, tl, heq⟩ := List.exists_cons_of_ne_nil hne
    have hhead : (rankResults results).head? = some hd := by
      rw [heq]
      rfl
    have hnone := List.find?_eq_none.mp hfind
    refine ⟨hd, ?_, ?_, ?_, ?_⟩
    · unfold recommendation
      rw [hfind, hhead]
    · exact hperm.mem_iff.mp (heq ▸ List.mem_cons_self hd tl)
    · intro hex
      obtain ⟨r, hr, hr0⟩ := hex
      have := hnone r (hperm.mem_iff.mpr hr)
      simp [hr0] at this
    · intro _ r hr
      exact sorted_head_min _ hsort hd hhead r (hperm.mem_iff.mpr hr)
  · obtain ⟨h0, hmem, hmin⟩ := find_zero_err_min _ hsort rec hfind
    refine ⟨rec, ?_, hperm.mem_iff.mp hmem, ?_, ?_⟩
    · unfold recommendation
      rw [hfind]
    · intro _
      exact ⟨h0, fun r hr hr0 => hmin r (hperm.mem_iff.mpr hr) hr0⟩
    · intro hall
      exact absurd h0 (hall rec (hperm.mem_iff.mp hmem))

theorem optimize_recommendation_witness :
    (rankResults
        [⟨⟨"a", 1, 1⟩, 1, ⟨5, 5, 5, 5, 5, 5, 5, 5, 5, 0⟩, [], 0, 0, 1⟩,
         ⟨⟨"b", 7, 2⟩, 2, ⟨3, 3, 3, 3, 3, 3, 3, 3, 3, 0⟩, [], 0, 0, 0⟩]).Perm
      [⟨⟨"a", 1, 1⟩, 1, ⟨5, 5, 5, 5, 5, 5, 5, 5, 5, 0⟩, [], 0, 0, 1⟩,
       ⟨⟨"b", 7, 2⟩, 2, ⟨3, 3, 3, 3, 3, 3, 3, 3, 3, 0⟩, [], 0, 0, 0⟩]
    ∧ ∃ rec, recommendation
        [⟨⟨"a", 1, 1⟩, 1, ⟨5, 5, 5, 5, 5, 5, 5, 5, 5, 0⟩, [], 0, 0, 1⟩,
         ⟨⟨"b", 7, 2⟩, 2, ⟨3, 3, 3, 3, 3, 3, 3, 3, 3, 0⟩, [], 0, 0, 0⟩] = some rec
      ∧ rec ∈ [⟨⟨"a", 1, 1⟩, 1, ⟨5, 5, 5, 5, 5, 5, 5, 5, 5, 0⟩, [], 0, 0, 1⟩,
         ⟨⟨"b", 7, 2⟩, 2, ⟨3, 3, 3, 3, 3, 3, 3, 3, 3, 0⟩, [], 0, 0, 0⟩] := by
  have hthm := optimize_recommendation
    [⟨⟨"a", 1, 1⟩, 1, ⟨5, 5, 5, 5, 5, 5, 5, 5, 5, 0⟩, [], 0, 0, 1⟩,
     ⟨⟨"b", 7, 2⟩, 2, ⟨3, 3, 3, 3, 3, 3, 3, 3, 3, 0⟩, [], 0, 0, 0⟩]
    (List.cons_ne_nil _ _)
  obtain ⟨rec, hrec, hmem, _, _⟩ := hthm.2.2
  exact ⟨hthm.1, rec, hrec, hmem⟩

/-! ## Heap model of how `calculatePercentiles` treats its argument

`calculatePercentiles` begins with `const sorted = [...values].sort(...)`
(stats-utils.ts lines 3-5): the spread copies the caller array and
`sort` mutates only the copy.  Arrays live in a store and are passed by
reference, as in JS. -/

structure Store where
  arrays : List (List ℚ)

def readArr (st : Store) (r : ℕ) : List ℚ := st.arrays.getD r []

def alloc (st : Store) (xs : List ℚ) : Store × ℕ :=
  (⟨st.arrays ++ [xs]⟩, st.arrays.length)

def writeArr (st : Store) (r : ℕ) (xs : List ℚ) : Store := ⟨st.arrays.set r xs⟩

/-- Embeds `arr.sort((a, b) => a - b)`: in-place ascending sort of the array
behind reference `r`. -/
def sortInPlace (st : Store) (r : ℕ) : Store :=
  writeArr st r (List.insertionSort (fun a b => a ≤ b) (readArr st r))

/-- Heap-level `calculatePercentiles` on the array behind reference
`r`: spread-copy it into a fresh array, sort that copy in place, and
compute the metrics from the sorted copy and the caller array. -/
def calculatePercentilesHeap (st : Store) (r : ℕ) : Store × PerformanceMetrics :=
  let copied := alloc st (readArr st r)
  let st2 := sortInPlace copied.1 copied.2
  (st2, calcMetrics (readArr st2 copied.2) (readArr st2 r))

theorem set_append_singleton (l : List (List ℚ)) (a b : List ℚ) :
    (l ++ [a]).set l.length b = l ++ [b] := by
  induction l with
  | nil => rfl
  | cons x xs ih =>
    simp only [List.cons_append, List.length_cons, List.set_cons_succ, ih]

/-- C10.  `calculatePercentiles` leaves the caller array
untouched: after the call the reference passed in still holds exactly
the elements it held before, in the same order, and the returned
metrics are those of the (pure) `calculatePercentiles` on its
contents. -/
theorem calculatePercentiles_no_mutation (st : Store) (r : ℕ)
    (h : r < st.arrays.length) :
    readArr (calculatePercentilesHeap st r).1 r = readArr st r
    ∧ (calculatePercentilesHeap st r).2 = calculatePercentiles (readArr st r) := by
  have hstore : (calculatePercentilesHeap st r).1.arrays
      = st.arrays ++ [List.insertionSort (fun a b => a ≤ b) (readArr st r)] := by
    show ((writeArr ⟨st.arrays ++ [readArr st r]⟩ st.arrays.length
        (List.insertionSort (fun a b => a ≤ b)
          ((⟨st.arrays ++ [readArr st r]⟩ : Store).arrays.getD st.arrays.length []))) :
        Store).arrays = _
    have hread : ((⟨st.arrays ++ [readArr st r]⟩ : Store).arrays.getD
        st.arrays.length []) = readArr st r := by
      show (st.arrays ++ [readArr st r]).getD st.arrays.length [] = readArr st r
      rw [List.getD_eq_getElem _ _ (by simp)]
      simp
    rw [hread]
    show (st.arrays ++ [readArr st r]).set st.arrays.length _ = _
    rw [set_append_singleton]
  have hcaller : readArr (calculatePercentilesHeap st r).1 r = readArr st r := by
    show (calculatePercentilesHeap st r).1.arrays.getD r [] = st.arrays.getD r []
    rw [hstore, List.getD_eq_getElem _ _ (by simp; omega),
      List.getD_eq_getElem _ _ h, List.getElem_append_left h]
  refine ⟨hcaller, ?_⟩
  show calcMetrics (readArr (calculatePercentilesHeap st r).1 st.arrays.length)
      (readArr (calculatePercentilesHeap st r).1 r) = calculatePercentiles (readArr st r)
  have hcopy : readArr (calculatePercentilesHeap st r).1 st.arrays.length
      = List.insertionSort (fun a b => a ≤ b) (readArr st r) := by
    show (calculatePercentilesHeap st r).1.arrays.getD st.arrays.length [] = _
    rw [hstore, List.getD_eq_getElem _ _ (by simp)]
    simp
  rw [hcopy, hcaller]
  rfl

theorem calculatePercentiles_no_mutation_witness :
    readArr (calculatePercentilesHeap ⟨[[3, 1, 2]]⟩ 0).1 0
      = readArr (⟨[[3, 1, 2]]⟩ : Store) 0
    ∧ (calculatePercentilesHeap ⟨[[3, 1, 2]]⟩ 0).2
      = calculatePercentiles (readArr (⟨[[3, 1, 2]]⟩ : Store) 0) :=
  calculatePercentiles_no_mutation ⟨[[3, 1, 2]]⟩ 0 (by decide)

end HealthieDevTools
